import Mathlib

/-!
# glisp: the method registry and its adaptive mapping

A shallow embedding of `handles.go` (package `glisp`): the generic
`mapping[K, V]` container with its slice and map representations, the
`routingNode` tree, `ServeMux.Handle`, and `HandlerFunc.ServeRPC`; and of
`CompletionItemKind` with its `String` method, from `domain/textDocument.go`.

Conventions of the embedding.

* A Go slice is a `List`; the nil slice and the empty slice are both `[]`
  (the source only ever takes `len`, `append` and `range` of it).
* A Go `map[K]V` value is `Option (List (K × V))`: `none` is the nil map,
  `some b` is an allocated map holding the bindings `b`.  Reading a nil map
  yields the zero value, writing to it panics.
* A Go pointer that may be nil is an `Option`.
* The zero value of a type is the `default` of its `Inhabited` instance.
* An operation that can panic returns `Option`, `none` being the panic.
* A `range` over a map takes its order from a `RangeOrder`, any rearrangement
  of the bindings; a function value called for its effect acts on a world `σ`.
* `handles.go` has no dispatch operation: `ServeMux.Dispatch` is modelled from
  the specification, over the method table and the `find` of the source.
-/

namespace Glisp

/-! ## Go maps -/

/-- A Go value of type `map[K]V`: `none` is the nil map. -/
abbrev GoMap (K V : Type) := Option (List (K × V))

namespace GoMap

variable {K V : Type}

/-- The bindings of an allocated map, searched for `k`. -/
def lookup [DecidableEq K] : List (K × V) → K → Option V
  | [], _ => none
  | (k', v) :: rest, k => if k' = k then some v else lookup rest k

/-- The bindings of an allocated map after `m[k] = v`: the binding of `k` is
replaced when there is one, added otherwise. -/
def update [DecidableEq K] : List (K × V) → K → V → List (K × V)
  | [], k, v => [(k, v)]
  | (k', v') :: rest, k, v =>
    if k' = k then (k, v) :: rest else (k', v') :: update rest k v

/-- The expression `map[K]V{}`: a freshly allocated, empty, non-nil map. -/
def make : GoMap K V := some []

/-- The statement `v, found = m[k]`; a nil map reads as empty. -/
def index [DecidableEq K] [Inhabited V] (m : GoMap K V) (k : K) : V × Bool :=
  match m with
  | none => (default, false)
  | some b =>
    match lookup b k with
    | some v => (v, true)
    | none => (default, false)

/-- The statement `m[k] = v`; assignment to an entry of a nil map panics. -/
def store [DecidableEq K] (m : GoMap K V) (k : K) (v : V) : Option (GoMap K V) :=
  match m with
  | none => none
  | some b => some (some (update b k v))

end GoMap

/-! ## The adaptive mapping -/

/-- An `entry` is an entry in a mapping. -/
structure entry (K V : Type) where
  key : K
  value : V
deriving DecidableEq, Repr

/-- A `mapping` is a slice of entries (for few pairs) and a map (for many). -/
structure mapping (K V : Type) where
  s : List (entry K V) := []
  m : Option (List (K × V)) := none
deriving DecidableEq, Repr

/-- The package variable `maxSlice`: the maximum number of pairs for which a
slice is used. -/
def maxSlice : Nat := 8

namespace mapping

variable {K V : Type}

/-- The loop `for _, e := range h.s { h.m[e.key] = e.value }` of `add`,
threading the map through the iterations. -/
def transfer [DecidableEq K] : List (entry K V) → GoMap K V → Option (GoMap K V)
  | [], m => some m
  | e :: rest, m => (GoMap.store m e.key e.value).bind (transfer rest)

/-- The method `(h *mapping[K, V]) add(k K, v V)`. -/
def add [DecidableEq K] (h : mapping K V) (k : K) (v : V) : Option (mapping K V) :=
  if h.m.isNone ∧ h.s.length < maxSlice then
    some { h with s := h.s ++ [⟨k, v⟩] }
  else
    (if h.m.isNone then
        (transfer h.s GoMap.make).map (fun m => ({ s := [], m := m } : mapping K V))
      else some h).bind
      (fun h1 => (GoMap.store h1.m k v).map (fun m => { h1 with m := m }))

/-- The loop `for _, e := range h.s { if e.key == k { return e.value, true } }`
of `find`, followed by its `return v, false`. -/
def scan [DecidableEq K] [Inhabited V] : List (entry K V) → K → V × Bool
  | [], _ => (default, false)
  | e :: rest, k => if e.key = k then (e.value, true) else scan rest k

/-- The method `(h *mapping[K, V]) find(k K) (v V, found bool)`; the receiver
is a pointer and may be nil. -/
def find [DecidableEq K] [Inhabited V] (h : Option (mapping K V)) (k : K) : V × Bool :=
  match h with
  | none => (default, false)
  | some h =>
    if h.m.isSome then GoMap.index h.m k
    else scan h.s k

/-- The bindings the loop of `transfer` leaves in an allocated map that held
the bindings `b`. -/
def transferred [DecidableEq K] (l : List (entry K V)) (b : List (K × V)) : List (K × V) :=
  l.foldl (fun b e => GoMap.update b e.key e.value) b

/-- The keys of the entry sequence, in order. -/
def keys (h : mapping K V) : List K := h.s.map entry.key

/-- A sequence of `add` calls, in order, on the same mapping. -/
def addAll [DecidableEq K] : mapping K V → List (K × V) → Option (mapping K V)
  | h, [] => some h
  | h, (k, v) :: rest => (h.add k v).bind (fun h1 => addAll h1 rest)

end mapping

/-! ## The routing tree and the mux -/

/-- The type `domain.Method`, a string. -/
abbrev Method := String

/-- A `routingNode` is a node in the routing tree: its children, keyed by
string, and its handler.  `H` is the type of the values of the `Handler`
interface, its `default` being the nil interface value. -/
inductive routingNode (H : Type) where
  | mk (children : mapping String (Option (routingNode H))) (handler : H)

namespace routingNode

variable {H : Type}

/-- The field `children`. -/
def children : routingNode H → mapping String (Option (routingNode H))
  | mk c _ => c

/-- The field `handler`. -/
def handler : routingNode H → H
  | mk _ h => h

end routingNode

/-- The state of a `sync.RWMutex`: whether it is held for writing and by how
many readers. -/
structure RWMutex where
  writer : Bool := false
  readers : Nat := 0
deriving DecidableEq, Repr

/-- A `ServeMux` is a lock and the root of the routing tree. -/
structure ServeMux (H : Type) where
  mu : RWMutex
  tree : routingNode H

namespace ServeMux

variable {H : Type}

/-- The zero value of `ServeMux`, which is also the value of `defaultMux`. -/
def zero [Inhabited H] : ServeMux H :=
  { mu := {}, tree := .mk {} default }

/-- The composite literal `&routingNode{handler: handler}`. -/
def newNode (handler : H) : Option (routingNode H) :=
  some (.mk {} handler)

/-- The method `(s *ServeMux) Handle(method domain.Method, handler Handler)`. -/
def Handle (s : ServeMux H) (method : Method) (handler : H) : Option (ServeMux H) :=
  let c := s.tree.children
  let c1 : mapping String (Option (routingNode H)) :=
    if c.m.isNone then { c with m := GoMap.make } else c
  (GoMap.store c1.m method (newNode handler)).map
    (fun m => { s with tree := .mk { c1 with m := m } s.tree.handler })

/-- The method table of the mux: a pointer to the root node's `children`. -/
def table (s : ServeMux H) : Option (mapping String (Option (routingNode H))) :=
  some s.tree.children

/-- A sequence of `Handle` calls, in order, on the same mux. -/
def handleAll : ServeMux H → List (Method × H) → Option (ServeMux H)
  | s, [] => some s
  | s, (m, h) :: rest => (s.Handle m h).bind (fun s1 => handleAll s1 rest)

/-- Registration as the specification words it: the binding goes through the
mapping's own insertion, `s.tree.children.add(string(method), &routingNode{handler})`.
This is the comparison point for `Handle`, not a translation of it. -/
def HandleViaAdd (s : ServeMux H) (method : Method) (handler : H) : Option (ServeMux H) :=
  (s.tree.children.add method (newNode handler)).map
    (fun c => { s with tree := .mk c s.tree.handler })

/-- A call `handler.ServeRPC(w, r)` made on a registered handler. -/
structure Invocation (H W R : Type) where
  handler : H
  w : W
  r : R

/-- The outcome `Dispatch` reports to its caller. -/
inductive DispatchOutcome where
  | invoked
  | methodNotFound
deriving DecidableEq, Repr

/-- Modelled from the spec: `ServeMux.Dispatch` is missing from `handles.go`,
whose `ServeMux` has the one method `Handle`.  Section 4.2 of the
specification: `Dispatch(method, request, sink)` looks `method` up in the method
table; if a handler is found it invokes it with `(sink, request)` and returns
once the handler returns; if none is found it reports method-not-found and
invokes no handler.  The lookup is the `find` of the source on the method
table; `serve` is the `ServeRPC` of the handlers, acting on the world `σ`.  The
shared access under which the lookup is made changes no sequential result and
is left out. -/
def Dispatch {W R σ : Type} (serve : H → W → R → σ → σ) (s : ServeMux H) (method : Method)
    (request : R) (sink : W) (st : σ) : DispatchOutcome × σ :=
  match mapping.find s.table method with
  | (some n, true) => (.invoked, serve n.handler sink request st)
  | _ => (.methodNotFound, st)

/-- The `ServeRPC` of the handlers, keeping a record of the invocations made. -/
def recorded {W R σ : Type} (serve : H → W → R → σ → σ) :
    H → W → R → σ × List (Invocation H W R) → σ × List (Invocation H W R) :=
  fun h w r st => (serve h w r st.1, st.2 ++ [⟨h, w, r⟩])

end ServeMux

/-! ## Handler functions -/

/-- A value of the type `HandlerFunc`, `func(ResponseWriter, *domain.Request)`:
what one call of the function does to the world `σ`. -/
abbrev HandlerFunc (W R σ : Type) := W → R → σ → σ

/-- The method `(f HandlerFunc) ServeRPC(w, r)`, whose body is the single
statement `f.ServeRPC(w, r)`, a call of the method itself.  `fuel` bounds the
depth of nested calls; `none` means that the bound was reached before the
outermost call returned. -/
def HandlerFunc.ServeRPC {W R σ : Type} (fuel : Nat) (f : HandlerFunc W R σ) (w : W) (r : R)
    (st : σ) : Option σ :=
  match fuel with
  | 0 => none
  | n + 1 => HandlerFunc.ServeRPC n f w r st

/-- The function `newR` of `examples/lite/main.go`: a handler function with an
empty body. -/
def newR {W R σ : Type} : HandlerFunc W R σ := fun _ _ st => st

/-! ## Reference association list -/

namespace Reference

variable {K V : Type}

/-- The reference association list of the specification: writing a key that is
present overwrites its value, writing an absent key adds the pair. -/
def write [DecidableEq K] : List (K × V) → K → V → List (K × V)
  | [], k, v => [(k, v)]
  | (k1, v1) :: rest, k, v =>
    if k1 = k then (k1, v) :: rest else (k1, v1) :: write rest k v

/-- A sequence of writes, in order, on the reference list. -/
def writeAll [DecidableEq K] (l : List (K × V)) (ops : List (K × V)) : List (K × V) :=
  ops.foldl (fun l p => write l p.1 p.2) l

/-- Lookup in the reference list: the value and whether the key is there. -/
def find [DecidableEq K] [Inhabited V] : List (K × V) → K → V × Bool
  | [], _ => (default, false)
  | (k1, v1) :: rest, k => if k1 = k then (v1, true) else find rest k

end Reference

/-! ## Traversal of the mapping -/

namespace mapping

variable {K V σ : Type}

/-- The order in which a `range` over a Go map yields its bindings: the
language leaves it unspecified, so it is any rearrangement of them. -/
structure RangeOrder (K V : Type) where
  order : List (K × V) → List (K × V)
  perm : ∀ b, (order b).Perm b

/-- The order that yields the bindings as they are stored. -/
def RangeOrder.stored : RangeOrder K V :=
  { order := fun b => b, perm := fun b => List.Perm.refl b }

/-- A visitor `f func(k K, v V) bool`: its answer and what the call does to
the world `σ`. -/
abbrev Visitor (K V σ : Type) := K → V → σ → Bool × σ

/-- The pair `e.key, e.value` of an entry. -/
def toPair (e : entry K V) : K × V := (e.key, e.value)

/-- The entry `entry[K, V]{k, v}` of a pair. -/
def toEntry (p : K × V) : entry K V := ⟨p.1, p.2⟩

/-- The loops `for ... { if !f(k, v) { return } }` of `eachPair`, over the
pairs in the order of the iteration. -/
def eachPairLoop (f : Visitor K V σ) : List (K × V) → σ → σ
  | [], st => st
  | (k, v) :: rest, st =>
    if (f k v st).1 then eachPairLoop f rest (f k v st).2 else (f k v st).2

/-- The method `(h *mapping[K, V]) eachPair(f func(k K, v V) bool)`; the
receiver is a pointer and may be nil. -/
def eachPair (ρ : RangeOrder K V) (h : Option (mapping K V)) (f : Visitor K V σ)
    (st : σ) : σ :=
  match h with
  | none => st
  | some h =>
    match h.m with
    | some b => eachPairLoop f (ρ.order b) st
    | none => eachPairLoop f (h.s.map toPair) st

/-- One call of a visitor: its arguments and its answer. -/
structure VisitorCall (K V : Type) where
  key : K
  value : V
  result : Bool
deriving DecidableEq, Repr

/-- The visitor `f`, keeping a record of the calls made to it. -/
def logged (f : Visitor K V σ) : Visitor K V (σ × List (VisitorCall K V)) :=
  fun k v st => ((f k v st.1).1, ((f k v st.1).2, st.2 ++ [⟨k, v, (f k v st.1).1⟩]))

end mapping

/-! ## The body of `Handle`, statement by statement -/

namespace ServeMux

variable {H : Type}

/-- The two statements of the body of `Handle`. -/
inductive HandleStmt (H : Type) where
  | allocate
  | assign (method : Method) (handler : H)

/-- The effect of one statement of `Handle` on the mux:
`if s.tree.children.m == nil { s.tree.children.m = map[string]*routingNode{} }`,
and `s.tree.children.m[string(method)] = &routingNode{handler: handler}`. -/
def HandleStmt.exec : HandleStmt H → ServeMux H → Option (ServeMux H)
  | .allocate, s =>
    some (if s.tree.children.m.isNone then
        { s with tree := .mk { s.tree.children with m := GoMap.make } s.tree.handler }
      else s)
  | .assign method handler, s =>
    (GoMap.store s.tree.children.m method (newNode handler)).map
      (fun m => { s with tree := .mk { s.tree.children with m := m } s.tree.handler })

/-- The body of `Handle`: its statements in order. -/
def HandleBody (method : Method) (handler : H) : List (HandleStmt H) :=
  [.allocate, .assign method handler]

/-- Running statements in order: the states in which the statements start,
and the final state. -/
def runStmts : List (HandleStmt H) → ServeMux H → List (ServeMux H) × Option (ServeMux H)
  | [], s => ([], some s)
  | c :: rest, s =>
    match c.exec s with
    | none => ([s], none)
    | some s1 => (s :: (runStmts rest s1).1, (runStmts rest s1).2)

end ServeMux

/-! ## Completion item kinds -/

namespace domain

/-- The type `CompletionItemKind`, an `int`. -/
abbrev CompletionItemKind := Int

/-- The value of an `int` expression: 64-bit two's complement. -/
def wrapInt (x : Int) : Int := (x + 2 ^ 63) % 2 ^ 64 - 2 ^ 63

/-- The constant `Text CompletionItemKind = iota + 1`. -/
def Text : CompletionItemKind := 0 + 1
/-- The constant `CompletionItemKindMethod`. -/
def CompletionItemKindMethod : CompletionItemKind := 1 + 1
/-- The constant `CompletionItemKindFunction`. -/
def CompletionItemKindFunction : CompletionItemKind := 2 + 1
/-- The constant `CompletionItemKindConstructor`. -/
def CompletionItemKindConstructor : CompletionItemKind := 3 + 1
/-- The constant `CompletionItemKindField`. -/
def CompletionItemKindField : CompletionItemKind := 4 + 1
/-- The constant `CompletionItemKindVariable`. -/
def CompletionItemKindVariable : CompletionItemKind := 5 + 1
/-- The constant `CompletionItemKindClass`. -/
def CompletionItemKindClass : CompletionItemKind := 6 + 1
/-- The constant `CompletionItemKindInterface`. -/
def CompletionItemKindInterface : CompletionItemKind := 7 + 1
/-- The constant `CompletionItemKindModule`. -/
def CompletionItemKindModule : CompletionItemKind := 8 + 1
/-- The constant `CompletionItemKindProperty`. -/
def CompletionItemKindProperty : CompletionItemKind := 9 + 1
/-- The constant `CompletionItemKindUnit`. -/
def CompletionItemKindUnit : CompletionItemKind := 10 + 1
/-- The constant `CompletionItemKindValue`. -/
def CompletionItemKindValue : CompletionItemKind := 11 + 1
/-- The constant `CompletionItemKindEnum`. -/
def CompletionItemKindEnum : CompletionItemKind := 12 + 1
/-- The constant `CompletionItemKindKeyword`. -/
def CompletionItemKindKeyword : CompletionItemKind := 13 + 1
/-- The constant `CompletionItemKindSnippet`. -/
def CompletionItemKindSnippet : CompletionItemKind := 14 + 1
/-- The constant `CompletionItemKindColor`. -/
def CompletionItemKindColor : CompletionItemKind := 15 + 1
/-- The constant `CompletionItemKindFile`. -/
def CompletionItemKindFile : CompletionItemKind := 16 + 1
/-- The constant `CompletionItemKindReference`. -/
def CompletionItemKindReference : CompletionItemKind := 17 + 1
/-- The constant `CompletionItemKindFolder`. -/
def CompletionItemKindFolder : CompletionItemKind := 18 + 1
/-- The constant `CompletionItemKindEnumMember`. -/
def CompletionItemKindEnumMember : CompletionItemKind := 19 + 1
/-- The constant `CompletionItemKindConstant`. -/
def CompletionItemKindConstant : CompletionItemKind := 20 + 1
/-- The constant `CompletionItemKindStruct`. -/
def CompletionItemKindStruct : CompletionItemKind := 21 + 1
/-- The constant `CompletionItemKindEvent`. -/
def CompletionItemKindEvent : CompletionItemKind := 22 + 1
/-- The constant `CompletionItemKindOperator`. -/
def CompletionItemKindOperator : CompletionItemKind := 23 + 1
/-- The constant `CompletionItemKindTypeParameter`. -/
def CompletionItemKindTypeParameter : CompletionItemKind := 24 + 1

/-- The array literal `[...]string{...}` of `String`. -/
def kindNames : List String :=
  ["Text", "Method", "Function", "Constructor", "Field", "Variable", "Class",
    "Interface", "Module", "Property", "Unit", "Value", "Enum", "Keyword", "Snippet",
    "Color", "File", "Reference", "Folder", "EnumMember", "Constant", "Struct", "Event",
    "Operator", "TypeParameter"]

/-- The method `(c CompletionItemKind) String() string`: the array literal
indexed by `c-1`; an index outside the array panics. -/
def CompletionItemKind.String (c : CompletionItemKind) : Option String :=
  if 0 ≤ wrapInt (c - 1) ∧ wrapInt (c - 1) < kindNames.length then
    kindNames[(wrapInt (c - 1)).toNat]?
  else none

/-- The declared constants of the type, each with its identifier, in the order
of the `const` block. -/
def declaredKinds : List (String × CompletionItemKind) :=
  [("Text", Text), ("CompletionItemKindMethod", CompletionItemKindMethod),
    ("CompletionItemKindFunction", CompletionItemKindFunction),
    ("CompletionItemKindConstructor", CompletionItemKindConstructor),
    ("CompletionItemKindField", CompletionItemKindField),
    ("CompletionItemKindVariable", CompletionItemKindVariable),
    ("CompletionItemKindClass", CompletionItemKindClass),
    ("CompletionItemKindInterface", CompletionItemKindInterface),
    ("CompletionItemKindModule", CompletionItemKindModule),
    ("CompletionItemKindProperty", CompletionItemKindProperty),
    ("CompletionItemKindUnit", CompletionItemKindUnit),
    ("CompletionItemKindValue", CompletionItemKindValue),
    ("CompletionItemKindEnum", CompletionItemKindEnum),
    ("CompletionItemKindKeyword", CompletionItemKindKeyword),
    ("CompletionItemKindSnippet", CompletionItemKindSnippet),
    ("CompletionItemKindColor", CompletionItemKindColor),
    ("CompletionItemKindFile", CompletionItemKindFile),
    ("CompletionItemKindReference", CompletionItemKindReference),
    ("CompletionItemKindFolder", CompletionItemKindFolder),
    ("CompletionItemKindEnumMember", CompletionItemKindEnumMember),
    ("CompletionItemKindConstant", CompletionItemKindConstant),
    ("CompletionItemKindStruct", CompletionItemKindStruct),
    ("CompletionItemKindEvent", CompletionItemKindEvent),
    ("CompletionItemKindOperator", CompletionItemKindOperator),
    ("CompletionItemKindTypeParameter", CompletionItemKindTypeParameter)]

/-- An identifier without its leading `CompletionItemKind`, when it has one. -/
def kindName (identifier : String) : String :=
  if "CompletionItemKind".data.isPrefixOf identifier.data then
    String.mk (identifier.data.drop "CompletionItemKind".length)
  else identifier

end domain

/-! ## Basic facts about Go maps -/

namespace GoMap

variable {K V : Type}

theorem lookup_update_self [DecidableEq K] (b : List (K × V)) (k : K) (v : V) :
    lookup (update b k v) k = some v := by
  induction b with
  | nil => simp [update, lookup]
  | cons p rest ih =>
    obtain ⟨k', v'⟩ := p
    by_cases hk : k' = k
    · simp [update, lookup, hk]
    · simp [update, lookup, hk, ih]

theorem lookup_update_ne [DecidableEq K] (b : List (K × V)) (k k' : K) (v : V)
    (hne : k' ≠ k) : lookup (update b k v) k' = lookup b k' := by
  induction b with
  | nil =>
    have hne' : ¬ k = k' := fun h => hne h.symm
    simp [update, lookup, hne']
  | cons p rest ih =>
    obtain ⟨k1, v1⟩ := p
    by_cases hk : k1 = k
    · have hne' : ¬ k = k' := fun h => hne h.symm
      simp [update, lookup, hk, hne']
    · by_cases hk' : k1 = k'
      · subst hk'
        simp [update, lookup, hk]
      · simp [update, lookup, hk, hk', ih]

theorem index_some [DecidableEq K] [Inhabited V] (b : List (K × V)) (k : K) :
    index (some b) k = (match lookup b k with
      | some v => (v, true)
      | none => (default, false)) := rfl

theorem store_some [DecidableEq K] (b : List (K × V)) (k : K) (v : V) :
    store (some b) k v = some (some (update b k v)) := rfl

theorem index_update_self [DecidableEq K] [Inhabited V] (b : List (K × V)) (k : K) (v : V) :
    index (some (update b k v)) k = (v, true) := by
  simp [index_some, lookup_update_self]

theorem index_update_ne [DecidableEq K] [Inhabited V] (b : List (K × V)) (k k' : K) (v : V)
    (hne : k' ≠ k) : index (some (update b k v)) k' = index (some b) k' := by
  simp [index_some, lookup_update_ne b k k' v hne]

end GoMap

/-! ## Basic facts about the mapping -/

namespace mapping

variable {K V : Type}

theorem transfer_some [DecidableEq K] (l : List (entry K V)) (b : List (K × V)) :
    transfer l (some b) = some (some (transferred l b)) := by
  induction l generalizing b with
  | nil => rfl
  | cons e rest ih => simp [transfer, transferred, GoMap.store_some, ih]

/-- Below the threshold a compact mapping appends. -/
theorem add_compact [DecidableEq K] (h : mapping K V) (k : K) (v : V)
    (hm : h.m = none) (hl : h.s.length < maxSlice) :
    h.add k v = some { s := h.s ++ [⟨k, v⟩], m := none } := by
  simp [add, hm, hl]

/-- At the threshold a compact mapping converts, then stores. -/
theorem add_convert [DecidableEq K] (h : mapping K V) (k : K) (v : V)
    (hm : h.m = none) (hl : ¬ h.s.length < maxSlice) :
    h.add k v = some { s := [], m := some (GoMap.update (transferred h.s []) k v) } := by
  simp [add, hm, hl, GoMap.make, transfer_some, GoMap.store_some]

/-- An indexed mapping stores into its map. -/
theorem add_indexed [DecidableEq K] (h : mapping K V) (k : K) (v : V)
    (b : List (K × V)) (hm : h.m = some b) :
    h.add k v = some { s := h.s, m := some (GoMap.update b k v) } := by
  simp [add, hm, GoMap.store_some]

theorem find_compact [DecidableEq K] [Inhabited V] (h : mapping K V) (k : K)
    (hm : h.m = none) : find (some h) k = scan h.s k := by
  simp [find, hm]

theorem find_indexed [DecidableEq K] [Inhabited V] (h : mapping K V) (k : K)
    (b : List (K × V)) (hm : h.m = some b) : find (some h) k = GoMap.index (some b) k := by
  simp [find, hm]

theorem scan_of_not_mem [DecidableEq K] [Inhabited V] (l : List (entry K V)) (k : K)
    (hk : k ∉ l.map entry.key) : scan l k = (default, false) := by
  induction l with
  | nil => rfl
  | cons e rest ih =>
    simp only [List.map_cons, List.mem_cons, not_or] at hk
    have hne : ¬ e.key = k := fun h => hk.1 h.symm
    simp [scan, hne, ih hk.2]

theorem scan_snd_false_iff [DecidableEq K] [Inhabited V] (l : List (entry K V)) (k : K) :
    (scan l k).2 = false ↔ k ∉ l.map entry.key := by
  induction l with
  | nil => simp [scan]
  | cons e rest ih =>
    by_cases hk : e.key = k
    · simp [scan, hk]
    · have hk' : ¬ k = e.key := fun h => hk h.symm
      simp [scan, hk, hk', ih]

theorem scan_append_ne [DecidableEq K] [Inhabited V] (l : List (entry K V)) (k k' : K)
    (v : V) (hne : k' ≠ k) : scan (l ++ [⟨k, v⟩]) k' = scan l k' := by
  induction l with
  | nil =>
    have hne' : ¬ k = k' := fun h => hne h.symm
    simp [scan, hne']
  | cons e rest ih =>
    by_cases hk : e.key = k'
    · simp [scan, hk]
    · simp [scan, hk, ih]

theorem scan_append_fresh [DecidableEq K] [Inhabited V] (l : List (entry K V)) (k : K)
    (v : V) (hk : k ∉ l.map entry.key) : scan (l ++ [⟨k, v⟩]) k = (v, true) := by
  induction l with
  | nil => simp [scan]
  | cons e rest ih =>
    simp only [List.map_cons, List.mem_cons, not_or] at hk
    have hne : ¬ e.key = k := fun h => hk.1 h.symm
    simp [scan, hne, ih hk.2]

/-- With pairwise distinct keys the transfer loop preserves every lookup. -/
theorem index_transferred [DecidableEq K] [Inhabited V] (l : List (entry K V))
    (b : List (K × V)) (k : K) (hnd : (l.map entry.key).Nodup) :
    GoMap.index (some (transferred l b)) k
      = if k ∈ l.map entry.key then scan l k else GoMap.index (some b) k := by
  induction l generalizing b with
  | nil => simp [transferred]
  | cons e rest ih =>
    simp only [List.map_cons, List.nodup_cons] at hnd
    have hstep : transferred (e :: rest) b = transferred rest (GoMap.update b e.key e.value) := rfl
    rw [hstep, ih _ hnd.2]
    by_cases hk : e.key = k
    · subst hk
      simp [hnd.1, scan, GoMap.index_update_self]
    · have hk' : ¬ k = e.key := fun h => hk h.symm
      simp [scan, hk, hk', GoMap.index_update_ne b e.key k e.value hk']

theorem add_total [DecidableEq K] (h : mapping K V) (k : K) (v : V) :
    ∃ h1, h.add k v = some h1 := by
  cases hm : h.m with
  | none =>
    by_cases hl : h.s.length < maxSlice
    · exact ⟨_, add_compact h k v hm hl⟩
    · exact ⟨_, add_convert h k v hm hl⟩
  | some b => exact ⟨_, add_indexed h k v b hm⟩

/-- Adding `k` leaves the lookup of any other key unchanged, provided the keys
of a compact mapping are pairwise distinct. -/
theorem find_add_ne [DecidableEq K] [Inhabited V] (h h1 : mapping K V) (k k' : K) (v : V)
    (hwf : h.m = none → h.keys.Nodup) (hne : k' ≠ k) (hadd : h.add k v = some h1) :
    find (some h1) k' = find (some h) k' := by
  cases hm : h.m with
  | none =>
    by_cases hl : h.s.length < maxSlice
    · rw [add_compact h k v hm hl] at hadd
      cases hadd
      rw [find_compact _ _ rfl, find_compact _ _ hm]
      exact scan_append_ne h.s k k' v hne
    · rw [add_convert h k v hm hl] at hadd
      cases hadd
      rw [find_indexed _ _ _ rfl, find_compact _ _ hm,
        GoMap.index_update_ne _ _ _ _ hne, index_transferred _ _ _ (hwf hm)]
      by_cases hmem : k' ∈ h.s.map entry.key
      · simp [hmem]
      · simp [hmem, scan_of_not_mem _ _ hmem, GoMap.index_some, GoMap.lookup]
  | some b =>
    rw [add_indexed h k v b hm] at hadd
    cases hadd
    rw [find_indexed _ _ _ rfl, find_indexed _ _ _ hm]
    exact GoMap.index_update_ne b k k' v hne

/-- Adding `k` makes `find k` return the value added, except when `k` is
already a key of a compact mapping below the threshold. -/
theorem find_add_self [DecidableEq K] [Inhabited V] (h h1 : mapping K V) (k : K) (v : V)
    (hfresh : h.m = none → h.s.length < maxSlice → k ∉ h.keys)
    (hadd : h.add k v = some h1) : find (some h1) k = (v, true) := by
  cases hm : h.m with
  | none =>
    by_cases hl : h.s.length < maxSlice
    · rw [add_compact h k v hm hl] at hadd
      cases hadd
      rw [find_compact _ _ rfl]
      exact scan_append_fresh h.s k v (hfresh hm hl)
    · rw [add_convert h k v hm hl] at hadd
      cases hadd
      rw [find_indexed _ _ _ rfl]
      exact GoMap.index_update_self _ k v
  | some b =>
    rw [add_indexed h k v b hm] at hadd
    cases hadd
    rw [find_indexed _ _ _ rfl]
    exact GoMap.index_update_self b k v

/-- Adding a key that is not yet stored keeps the keys of the compact form
pairwise distinct. -/
theorem add_keys_nodup [DecidableEq K] (h h1 : mapping K V) (k : K) (v : V)
    (hwf : h.m = none → h.keys.Nodup) (hfresh : h.m = none → k ∉ h.keys)
    (hadd : h.add k v = some h1) : h1.m = none → h1.keys.Nodup := by
  cases hm : h.m with
  | none =>
    by_cases hl : h.s.length < maxSlice
    · rw [add_compact h k v hm hl] at hadd
      cases hadd
      intro _
      have h1 := hwf hm
      have h2 := hfresh hm
      simp only [keys] at h1 h2 ⊢
      simp only [List.map_append, List.map_cons, List.map_nil]
      exact List.Nodup.append h1 (List.nodup_singleton k)
        (by simpa [List.Disjoint] using h2)
    · rw [add_convert h k v hm hl] at hadd
      cases hadd
      intro hc
      cases hc
  | some b =>
    rw [add_indexed h k v b hm] at hadd
    cases hadd
    intro hc
    cases hc

/-- A key that `find` does not report is not among the keys of the compact
form. -/
theorem not_mem_keys_of_find [DecidableEq K] [Inhabited V] (h : mapping K V) (k : K)
    (hf : (find (some h) k).2 = false) (hm : h.m = none) : k ∉ h.keys := by
  rw [find_compact h k hm] at hf
  exact (scan_snd_false_iff h.s k).1 hf

/-- A sequence of `add` calls with pairwise distinct keys, none of them stored
before, makes every pair retrievable and leaves the other keys as they were. -/
theorem addAll_distinct [DecidableEq K] [Inhabited V] (ops : List (K × V)) :
    ∀ h : mapping K V, (h.m = none → h.keys.Nodup) → (ops.map Prod.fst).Nodup →
      (∀ p ∈ ops, (find (some h) p.1).2 = false) →
      ∃ h1, addAll h ops = some h1 ∧
        (∀ p ∈ ops, find (some h1) p.1 = (p.2, true)) ∧
        (∀ k, k ∉ ops.map Prod.fst → find (some h1) k = find (some h) k) := by
  induction ops with
  | nil =>
    intro h _ _ _
    exact ⟨h, rfl, by simp, fun _ _ => rfl⟩
  | cons p rest ih =>
    obtain ⟨k, v⟩ := p
    intro h hwf hnd hfresh
    simp only [List.map_cons, List.nodup_cons] at hnd
    obtain ⟨h1, hadd⟩ := add_total h k v
    have hk : h.m = none → k ∉ h.keys := fun hm =>
      not_mem_keys_of_find h k (hfresh (k, v) (List.mem_cons_self _ _)) hm
    have hwf1 := add_keys_nodup h h1 k v hwf hk hadd
    have hne : ∀ p ∈ rest, p.1 ≠ k := by
      intro p hp heq
      exact hnd.1 (heq ▸ List.mem_map_of_mem Prod.fst hp)
    have hfresh1 : ∀ p ∈ rest, (find (some h1) p.1).2 = false := by
      intro p hp
      rw [find_add_ne h h1 k p.1 v hwf (hne p hp) hadd]
      exact hfresh p (List.mem_cons_of_mem _ hp)
    obtain ⟨h2, hall, hret, hframe⟩ := ih h1 hwf1 hnd.2 hfresh1
    refine ⟨h2, by simp [addAll, hadd, hall], ?_, ?_⟩
    · intro p hp
      rcases List.mem_cons.1 hp with hp | hp
      · subst hp
        rw [hframe k hnd.1]
        exact find_add_self h h1 k v (fun hm _ => hk hm) hadd
      · exact hret p hp
    · intro k' hk'
      simp only [List.map_cons, List.mem_cons, not_or] at hk'
      rw [hframe k' hk'.2]
      exact find_add_ne h h1 k k' v hwf hk'.1 hadd

end mapping

/-! ## Basic facts about the mux -/

theorem routingNode.children_mk {H : Type} (c : mapping String (Option (routingNode H)))
    (h : H) : (routingNode.mk c h).children = c := rfl

theorem routingNode.handler_mk {H : Type} (c : mapping String (Option (routingNode H)))
    (h : H) : (routingNode.mk c h).handler = h := rfl

namespace ServeMux

variable {H : Type}

/-- On a nil method map `Handle` allocates a map and stores the one binding. -/
theorem Handle_nil (s : ServeMux H) (method : Method) (handler : H)
    (hm : s.tree.children.m = none) :
    s.Handle method handler = some ⟨s.mu, .mk
      ⟨s.tree.children.s, some [(method, newNode handler)]⟩ s.tree.handler⟩ := by
  simp [Handle, hm, GoMap.make, GoMap.store_some, GoMap.update]

/-- On an allocated method map `Handle` stores into it. -/
theorem Handle_indexed (s : ServeMux H) (method : Method) (handler : H)
    (b : List (String × Option (routingNode H))) (hm : s.tree.children.m = some b) :
    s.Handle method handler = some ⟨s.mu, .mk
      ⟨s.tree.children.s, some (GoMap.update b method (newNode handler))⟩ s.tree.handler⟩ := by
  simp [Handle, hm, GoMap.store_some]

theorem Handle_total (s : ServeMux H) (method : Method) (handler : H) :
    ∃ s1, s.Handle method handler = some s1 := by
  cases hm : s.tree.children.m with
  | none => exact ⟨_, Handle_nil s method handler hm⟩
  | some b => exact ⟨_, Handle_indexed s method handler b hm⟩

/-- The lookup of the method just registered. -/
theorem find_Handle_self (s s1 : ServeMux H) (method : Method) (handler : H)
    (hh : s.Handle method handler = some s1) :
    mapping.find s1.table method = (newNode handler, true) := by
  cases hm : s.tree.children.m with
  | none =>
    rw [Handle_nil s method handler hm] at hh
    cases hh
    simp [table, routingNode.children_mk, mapping.find, GoMap.index_some, GoMap.lookup]
  | some b =>
    rw [Handle_indexed s method handler b hm] at hh
    cases hh
    simp only [table, routingNode.children_mk]
    rw [mapping.find_indexed _ _ _ rfl]
    exact GoMap.index_update_self b method (newNode handler)

/-- The lookup of any other method, on a mux whose entry sequence is empty. -/
theorem find_Handle_ne (s s1 : ServeMux H) (method other : Method) (handler : H)
    (hs : s.tree.children.s = []) (hne : other ≠ method)
    (hh : s.Handle method handler = some s1) :
    mapping.find s1.table other = mapping.find s.table other := by
  cases hm : s.tree.children.m with
  | none =>
    rw [Handle_nil s method handler hm] at hh
    cases hh
    have hne1 : ¬ method = other := fun h => hne h.symm
    simp [table, routingNode.children_mk, mapping.find, GoMap.index_some, GoMap.lookup, hm, hs,
      mapping.scan, hne1]
  | some b =>
    rw [Handle_indexed s method handler b hm] at hh
    cases hh
    simp only [table, routingNode.children_mk]
    rw [mapping.find_indexed _ _ _ rfl, mapping.find_indexed _ _ _ hm]
    exact GoMap.index_update_ne b method other (newNode handler) hne

/-- The entry sequence of the method table stays as `Handle` found it. -/
theorem Handle_slice (s s1 : ServeMux H) (method : Method) (handler : H)
    (hh : s.Handle method handler = some s1) :
    s1.tree.children.s = s.tree.children.s := by
  cases hm : s.tree.children.m with
  | none =>
    rw [Handle_nil s method handler hm] at hh
    cases hh
    rfl
  | some b =>
    rw [Handle_indexed s method handler b hm] at hh
    cases hh
    rfl

theorem handleAll_slice (calls : List (Method × H)) :
    ∀ s s1 : ServeMux H, handleAll s calls = some s1 →
      s1.tree.children.s = s.tree.children.s := by
  induction calls with
  | nil =>
    intro s s1 h
    cases h
    rfl
  | cons c rest ih =>
    obtain ⟨m, h⟩ := c
    intro s s1 hall
    obtain ⟨s2, hh⟩ := Handle_total s m h
    simp only [handleAll, hh, Option.some_bind] at hall
    rw [ih s2 s1 hall, Handle_slice s s2 m h hh]

/-- Every mux reached from the zero value has an empty entry sequence. -/
theorem reachable_slice [Inhabited H] (calls : List (Method × H)) (s : ServeMux H)
    (hr : handleAll zero calls = some s) : s.tree.children.s = [] := by
  rw [handleAll_slice calls zero s hr]
  rfl

theorem handleAll_unregistered (calls : List (Method × H)) (other : Method) :
    ∀ s : ServeMux H, s.tree.children.s = [] → other ∉ calls.map Prod.fst →
      ∃ s1, handleAll s calls = some s1 ∧
        mapping.find s1.table other = mapping.find s.table other := by
  induction calls with
  | nil =>
    intro s _ _
    exact ⟨s, rfl, rfl⟩
  | cons c rest ih =>
    obtain ⟨m, h⟩ := c
    intro s hs hnot
    simp only [List.map_cons, List.mem_cons, not_or] at hnot
    obtain ⟨s2, hh⟩ := Handle_total s m h
    have hs2 : s2.tree.children.s = [] := by rw [Handle_slice s s2 m h hh, hs]
    obtain ⟨s1, hall, hfind⟩ := ih s2 hs2 hnot.2
    refine ⟨s1, by simp [handleAll, hh, hall], ?_⟩
    rw [hfind, find_Handle_ne s s2 m other h hs hnot.1 hh]

end ServeMux

/-! ## Registration and lookup -/

/-- C1: after `Handle(M, H)` on any mux, whatever was registered before, the
lookup of `M` in the method table reports found and yields a node whose
handler is exactly `H`. -/
theorem Handle_then_find_yields_handler {H : Type} (s : ServeMux H) (M : Method) (h : H) :
    ∃ s1 n, s.Handle M h = some s1 ∧
      mapping.find s1.table M = (some n, true) ∧ n.handler = h := by
  obtain ⟨s1, hh⟩ := ServeMux.Handle_total s M h
  exact ⟨s1, .mk {} h, hh, ServeMux.find_Handle_self s s1 M h hh, rfl⟩

/-- C2: on a mux reached from the zero value by `Handle` calls, `Handle(M, H)`
leaves the lookup of every other method as it was, a prefix or an extension
of `M` included. -/
theorem Handle_keeps_other_methods {H : Type} [Inhabited H] (calls : List (Method × H))
    (s : ServeMux H) (M other : Method) (h : H)
    (hr : ServeMux.handleAll ServeMux.zero calls = some s) (hne : other ≠ M) :
    ∃ s1, s.Handle M h = some s1 ∧
      mapping.find s1.table other = mapping.find s.table other := by
  obtain ⟨s1, hh⟩ := ServeMux.Handle_total s M h
  exact ⟨s1, hh, ServeMux.find_Handle_ne s s1 M other h
    (ServeMux.reachable_slice calls s hr) hne hh⟩

/-- Witness of C2: with "ab" registered, registering its prefix "a" leaves the
lookup of "ab" unchanged. -/
theorem Handle_keeps_other_methods_witness :
    ServeMux.handleAll (ServeMux.zero : ServeMux Nat) [("ab", 1)]
        = some ⟨{}, .mk ⟨[], some [("ab", ServeMux.newNode 1)]⟩ 0⟩ ∧
      "ab" ≠ "a" ∧
      ∃ s1, ServeMux.Handle
          (⟨{}, .mk ⟨[], some [("ab", ServeMux.newNode 1)]⟩ 0⟩ : ServeMux Nat) "a" 2 = some s1 ∧
        mapping.find s1.table "ab" = mapping.find
          (ServeMux.table (⟨{}, .mk ⟨[], some [("ab", ServeMux.newNode 1)]⟩ 0⟩ : ServeMux Nat))
          "ab" :=
  ⟨rfl, by decide,
    Handle_keeps_other_methods [("ab", 1)] _ "a" "ab" 2 rfl (by decide)⟩

/-- C3: on a mux reached from the zero value by any sequence of `Handle`
calls, the lookup of a method that none of the calls registered reports not
found, with the nil node. -/
theorem find_unregistered_method {H : Type} [Inhabited H] (calls : List (Method × H))
    (other : Method) (hnot : other ∉ calls.map Prod.fst) :
    ∃ s, ServeMux.handleAll ServeMux.zero calls = some s ∧
      mapping.find s.table other = (none, false) := by
  obtain ⟨s, hall, hfind⟩ :=
    ServeMux.handleAll_unregistered calls other ServeMux.zero rfl hnot
  exact ⟨s, hall, by rw [hfind]; rfl⟩

/-- Witness of C3: after registering "textDocument/hover", the lookup of
"textDocument/definition" reports not found. -/
theorem find_unregistered_method_witness :
    "textDocument/definition" ∉
        ([("textDocument/hover", 1)] : List (Method × Nat)).map Prod.fst ∧
      ∃ s, ServeMux.handleAll (ServeMux.zero : ServeMux Nat) [("textDocument/hover", 1)]
          = some s ∧
        mapping.find s.table "textDocument/definition" = (none, false) :=
  ⟨by decide, find_unregistered_method [("textDocument/hover", 1)]
    "textDocument/definition" (by decide)⟩

/-- C5 fails on the code: `ServeRPC` calls itself, so whatever the depth
allowed it never returns and never calls `f`. -/
theorem ServeRPC_never_returns {W R σ : Type} (fuel : Nat) (f : HandlerFunc W R σ)
    (w : W) (r : R) (st : σ) : HandlerFunc.ServeRPC fuel f w r st = none := by
  induction fuel with
  | zero => rfl
  | succ n ih => simpa [HandlerFunc.ServeRPC] using ih

/-- C6 fails on the code: on the zero mux `Handle` leaves an allocated map and
an empty entry sequence, where the mapping's own `add` leaves one entry and a
nil map. -/
theorem Handle_zero_differs_from_add :
    ServeMux.Handle (ServeMux.zero : ServeMux Nat) "a" 1
        = some ⟨{}, .mk ⟨[], some [("a", ServeMux.newNode 1)]⟩ 0⟩ ∧
      ServeMux.HandleViaAdd (ServeMux.zero : ServeMux Nat) "a" 1
        = some ⟨{}, .mk ⟨[⟨"a", ServeMux.newNode 1⟩], none⟩ 0⟩ ∧
      ServeMux.Handle (ServeMux.zero : ServeMux Nat) "a" 1
        ≠ ServeMux.HandleViaAdd ServeMux.zero "a" 1 := by
  refine ⟨rfl, rfl, fun heq => ?_⟩
  have hlen := congrArg (Option.map (fun s => s.tree.children.s.length)) heq
  revert hlen
  decide

/-- Where `Handle` and the mapping's own `add` meet: they leave the same table
when the method map is allocated; when it is nil, `Handle` allocates a map
holding the one binding and leaves the entry sequence as it was. -/
theorem Handle_eq_add_when_indexed {H : Type} (s : ServeMux H) (M : Method) (h : H) :
    s.Handle M h =
      if s.tree.children.m.isSome then s.HandleViaAdd M h
      else some ⟨s.mu, .mk ⟨s.tree.children.s, some [(M, ServeMux.newNode h)]⟩
        s.tree.handler⟩ := by
  cases hm : s.tree.children.m with
  | none => simp [ServeMux.Handle_nil s M h hm]
  | some b =>
    simp [ServeMux.Handle_indexed s M h b hm, ServeMux.HandleViaAdd,
      mapping.add_indexed _ M (ServeMux.newNode h) b hm]

/-! ## The adaptive mapping -/

/-- C7 fails on the code: adding the key 1, already stored in a compact
mapping, appends a second entry, and `find` still returns the first value. -/
theorem add_present_key_returns_first_value :
    mapping.add ({ s := [⟨1, 10⟩], m := none } : mapping Nat Nat) 1 20
        = some { s := [⟨1, 10⟩, ⟨1, 20⟩], m := none } ∧
      mapping.find (some ({ s := [⟨1, 10⟩, ⟨1, 20⟩], m := none } : mapping Nat Nat)) 1
        = (10, true) := by
  decide

/-- C8 fails on the code: after writing 10 then 20 for the one key 1, `find`
returns 10 where the reference association list returns 20. -/
theorem addAll_disagrees_with_reference :
    (([(1, 10), (1, 20)] : List (Nat × Nat)).map Prod.fst).dedup.length ≤ 8 ∧
      (mapping.addAll ({} : mapping Nat Nat) [(1, 10), (1, 20)]).map
          (fun h => mapping.find (some h) 1) = some (10, true) ∧
      Reference.find (Reference.writeAll ([] : List (Nat × Nat)) [(1, 10), (1, 20)]) 1
        = (20, true) := by
  decide

/-- C9: a sequence of `add` calls with pairwise distinct keys on the zero
mapping, of any length, succeeds, and afterwards `find` returns every pair
added. -/
theorem addAll_distinct_keys_retrievable {K V : Type} [DecidableEq K] [Inhabited V]
    (ops : List (K × V)) (hnd : (ops.map Prod.fst).Nodup) :
    ∃ h, mapping.addAll ({} : mapping K V) ops = some h ∧
      ∀ p ∈ ops, mapping.find (some h) p.1 = (p.2, true) := by
  obtain ⟨h, hall, hret, _⟩ := mapping.addAll_distinct ops ({} : mapping K V)
    (fun _ => List.nodup_nil) hnd (fun _ _ => rfl)
  exact ⟨h, hall, hret⟩

/-- Witness of C9: nine distinct keys, which crosses the conversion. -/
theorem addAll_distinct_keys_retrievable_witness :
    (([(1, 11), (2, 12), (3, 13), (4, 14), (5, 15), (6, 16), (7, 17), (8, 18), (9, 19)] :
        List (Nat × Nat)).map Prod.fst).Nodup ∧
      ∃ h, mapping.addAll ({} : mapping Nat Nat)
          [(1, 11), (2, 12), (3, 13), (4, 14), (5, 15), (6, 16), (7, 17), (8, 18), (9, 19)]
          = some h ∧
        ∀ p ∈ ([(1, 11), (2, 12), (3, 13), (4, 14), (5, 15), (6, 16), (7, 17), (8, 18),
          (9, 19)] : List (Nat × Nat)), mapping.find (some h) p.1 = (p.2, true) :=
  ⟨by decide, addAll_distinct_keys_retrievable _ (by decide)⟩

/-- C10 fails on the code: two `add` calls with the key 1 on the zero mapping
leave a compact mapping whose entry sequence holds the key 1 twice. -/
theorem addAll_repeated_key_stored_twice :
    mapping.addAll ({} : mapping Nat Nat) [(1, 10), (1, 20)]
        = some { s := [⟨1, 10⟩, ⟨1, 20⟩], m := none } ∧
      mapping.keys ({ s := [⟨1, 10⟩, ⟨1, 20⟩], m := none } : mapping Nat Nat) = [1, 1] ∧
      ¬ (mapping.keys ({ s := [⟨1, 10⟩, ⟨1, 20⟩], m := none } : mapping Nat Nat)).Nodup := by
  decide

/-! ## Sequences of `add` calls -/

namespace mapping

variable {K V : Type}

theorem transferred_append [DecidableEq K] (l1 l2 : List (entry K V)) (b : List (K × V)) :
    transferred (l1 ++ l2) b = transferred l2 (transferred l1 b) := by
  simp [transferred, List.foldl_append]

theorem transferred_cons [DecidableEq K] (e : entry K V) (l : List (entry K V))
    (b : List (K × V)) :
    transferred (e :: l) b = transferred l (GoMap.update b e.key e.value) := rfl

/-- The transfer loop leaves the lookup of a key it does not store as it was. -/
theorem index_transferred_not_mem [DecidableEq K] [Inhabited V] (l : List (entry K V))
    (b : List (K × V)) (k : K) (hk : k ∉ l.map entry.key) :
    GoMap.index (some (transferred l b)) k = GoMap.index (some b) k := by
  induction l generalizing b with
  | nil => rfl
  | cons e rest ih =>
    simp only [List.map_cons, List.mem_cons, not_or] at hk
    rw [transferred_cons, ih _ hk.2]
    exact GoMap.index_update_ne b e.key k e.value hk.1

/-- A key that `find` does not report is still not reported after another key
is added. -/
theorem find_add_absent [DecidableEq K] [Inhabited V] (h h1 : mapping K V) (k k' : K) (v : V)
    (habs : find (some h) k' = (default, false)) (hne : k' ≠ k)
    (hadd : h.add k v = some h1) : find (some h1) k' = (default, false) := by
  cases hm : h.m with
  | none =>
    rw [find_compact h k' hm] at habs
    by_cases hl : h.s.length < maxSlice
    · rw [add_compact h k v hm hl] at hadd
      cases hadd
      rw [find_compact _ _ rfl]
      exact (scan_append_ne h.s k k' v hne).trans habs
    · rw [add_convert h k v hm hl] at hadd
      cases hadd
      have hnot : k' ∉ h.s.map entry.key :=
        (scan_snd_false_iff h.s k').1 (by rw [habs])
      rw [find_indexed _ _ _ rfl, GoMap.index_update_ne _ _ _ _ hne,
        index_transferred_not_mem _ _ _ hnot]
      rfl
  | some b =>
    rw [find_indexed h k' b hm] at habs
    rw [add_indexed h k v b hm] at hadd
    cases hadd
    rw [find_indexed _ _ _ rfl, GoMap.index_update_ne b k k' v hne]
    exact habs

/-- A key that no call of a sequence adds stays unreported. -/
theorem addAll_absent [DecidableEq K] [Inhabited V] (ops : List (K × V)) (k : K) :
    ∀ h : mapping K V, k ∉ ops.map Prod.fst → find (some h) k = (default, false) →
      ∃ h1, addAll h ops = some h1 ∧ find (some h1) k = (default, false) := by
  induction ops with
  | nil =>
    intro h _ habs
    exact ⟨h, rfl, habs⟩
  | cons p rest ih =>
    obtain ⟨k1, v1⟩ := p
    intro h hnot habs
    simp only [List.map_cons, List.mem_cons, not_or] at hnot
    obtain ⟨h1, hadd⟩ := add_total h k1 v1
    obtain ⟨h2, hall, hfind⟩ :=
      ih h1 hnot.2 (find_add_absent h h1 k1 k v1 habs hnot.1 hadd)
    exact ⟨h2, by simp [addAll, hadd, hall], hfind⟩

/-- On an indexed mapping a sequence of `add` calls stores every pair into the
map and leaves the entry sequence alone. -/
theorem addAll_indexed [DecidableEq K] (ops : List (K × V)) :
    ∀ (h : mapping K V) (b : List (K × V)), h.m = some b →
      addAll h ops = some { s := h.s, m := some (transferred (ops.map toEntry) b) } := by
  induction ops with
  | nil =>
    intro h b hm
    cases h
    cases hm
    rfl
  | cons p rest ih =>
    obtain ⟨k, v⟩ := p
    intro h b hm
    simp only [addAll, add_indexed h k v b hm, Option.some_bind]
    rw [ih _ (GoMap.update b k v) rfl]
    rfl

/-- On a compact mapping the pairs are appended while they fit, and all of
them end in the map once one does not. -/
theorem addAll_compact [DecidableEq K] (ops : List (K × V)) :
    ∀ h : mapping K V, h.m = none → h.s.length ≤ maxSlice →
      addAll h ops = some (if h.s.length + ops.length ≤ maxSlice then
          { s := h.s ++ ops.map toEntry, m := none }
        else { s := [], m := some (transferred (h.s ++ ops.map toEntry) []) }) := by
  induction ops with
  | nil =>
    intro h hm hl
    cases h
    cases hm
    simp only [addAll, List.length_nil, Nat.add_zero, List.map_nil, List.append_nil]
    rw [if_pos hl]
  | cons p rest ih =>
    obtain ⟨k, v⟩ := p
    intro h hm hl
    by_cases hlt : h.s.length < maxSlice
    · simp only [addAll, add_compact h k v hm hlt, Option.some_bind]
      rw [ih _ rfl (by simpa using hlt)]
      have hlen : (h.s ++ [(⟨k, v⟩ : entry K V)]).length + rest.length
          = h.s.length + ((k, v) :: rest).length := by
        simp only [List.length_append, List.length_cons, List.length_nil]
        omega
      have happ : (h.s ++ [(⟨k, v⟩ : entry K V)]) ++ rest.map toEntry
          = h.s ++ ((k, v) :: rest).map toEntry := by
        simp [toEntry]
      simp only [hlen, happ]
    · simp only [addAll, add_convert h k v hm hlt, Option.some_bind]
      rw [addAll_indexed rest _ _ rfl]
      have hbig : ¬ h.s.length + ((k, v) :: rest).length ≤ maxSlice := by
        simp only [List.length_cons]
        omega
      rw [if_neg hbig]
      simp only [List.map_cons, transferred_append, transferred_cons]
      rfl

end mapping

/-! ## Traversal -/

namespace mapping

variable {K V σ : Type}

/-- The calls a loop of `eachPair` makes: a leading part of the pairs, each
answered `true` but possibly the last, and all of them unless the last answer
was `false`. -/
theorem eachPairLoop_logged (f : Visitor K V σ) (seq : List (K × V)) :
    ∀ (st : σ) (log : List (VisitorCall K V)),
      ∃ (n : Nat) (calls : List (VisitorCall K V)), n ≤ seq.length ∧
        eachPairLoop (logged f) seq (st, log) = (eachPairLoop f seq st, log ++ calls) ∧
        calls.map (fun c => (c.key, c.value)) = seq.take n ∧
        (∀ c ∈ calls.dropLast, c.result = true) ∧
        (n < seq.length → ∃ c, calls.getLast? = some c ∧ c.result = false) ∧
        ((∀ k v s, (f k v s).1 = true) → n = seq.length) := by
  induction seq with
  | nil =>
    intro st log
    exact ⟨0, [], Nat.le_refl _, by simp [eachPairLoop], rfl, by simp, by simp, fun _ => rfl⟩
  | cons p rest ih =>
    obtain ⟨k, v⟩ := p
    intro st log
    by_cases hr : (f k v st).1 = true
    · obtain ⟨n, calls, hn, heq, hmap, hdl, hlast, hall⟩ :=
        ih (f k v st).2 (log ++ [⟨k, v, true⟩])
      refine ⟨n + 1, ⟨k, v, true⟩ :: calls, by simpa using hn, ?_, ?_, ?_, ?_, ?_⟩
      · simp [eachPairLoop, logged, hr, heq, List.append_assoc]
      · simp [hmap]
      · intro c hc
        cases calls with
        | nil => simp at hc
        | cons c1 t =>
          simp only [List.dropLast_cons₂, List.mem_cons] at hc
          rcases hc with hc | hc
          · rw [hc]
          · exact hdl c hc
      · intro hlt
        obtain ⟨c, hc, hres⟩ := hlast (by simpa using hlt)
        cases calls with
        | nil => simp at hc
        | cons c1 t => exact ⟨c, by simpa [List.getLast?_cons_cons] using hc, hres⟩
      · intro htrue
        simp [hall htrue]
    · have hr1 : (f k v st).1 = false := by simpa using hr
      refine ⟨1, [⟨k, v, false⟩], by simp, ?_, by simp, by simp, ?_, ?_⟩
      · simp [eachPairLoop, logged, hr1]
      · intro _
        exact ⟨⟨k, v, false⟩, rfl, rfl⟩
      · intro htrue
        rw [htrue k v st] at hr1
        cases hr1

end mapping

/-! ## More facts about the mux -/

namespace ServeMux

variable {H : Type}

/-- A method found before `Handle` is found after it, on a mux whose entry
sequence is empty. -/
theorem found_after_Handle (s s1 : ServeMux H) (method other : Method) (handler : H)
    (hs : s.tree.children.s = []) (hfound : (mapping.find s.table other).2 = true)
    (hh : s.Handle method handler = some s1) : (mapping.find s1.table other).2 = true := by
  by_cases hne : other = method
  · rw [hne, find_Handle_self s s1 method handler hh]
  · rw [find_Handle_ne s s1 method other handler hs hne hh]
    exact hfound

end ServeMux

/-! ## Lookup of absent keys, irreversibility, registration -/

/-- C11: after any sequence of `add` calls on the zero mapping, `find` of a key
that no call added returns the zero value and `false`; so does `find` on a nil
pointer and on the zero mapping, and `eachPair` on either calls the visitor not
once. -/
theorem find_key_never_added {K V σ : Type} [DecidableEq K] [Inhabited V]
    (ops : List (K × V)) (k : K) (hk : k ∉ ops.map Prod.fst) :
    (∃ h, mapping.addAll ({} : mapping K V) ops = some h ∧
      mapping.find (some h) k = (default, false)) ∧
    mapping.find (none : Option (mapping K V)) k = (default, false) ∧
    mapping.find (some ({} : mapping K V)) k = (default, false) ∧
    ∀ (ρ : mapping.RangeOrder K V) (f : mapping.Visitor K V σ) (st : σ),
      mapping.eachPair ρ none (mapping.logged f) (st, []) = (st, []) ∧
      mapping.eachPair ρ (some {}) (mapping.logged f) (st, []) = (st, []) :=
  ⟨mapping.addAll_absent ops k {} hk rfl, rfl, rfl, fun _ _ _ => ⟨rfl, rfl⟩⟩

/-- Witness of C11: the key 3 after the keys 1 and 2 were added. -/
theorem find_key_never_added_witness :
    (3 : Nat) ∉ ([(1, 10), (2, 20)] : List (Nat × Nat)).map Prod.fst ∧
    ((∃ h, mapping.addAll ({} : mapping Nat Nat) [(1, 10), (2, 20)] = some h ∧
      mapping.find (some h) 3 = (default, false)) ∧
    mapping.find (none : Option (mapping Nat Nat)) 3 = (default, false) ∧
    mapping.find (some ({} : mapping Nat Nat)) 3 = (default, false) ∧
    ∀ (ρ : mapping.RangeOrder Nat Nat) (f : mapping.Visitor Nat Nat Unit) (st : Unit),
      mapping.eachPair ρ none (mapping.logged f) (st, []) = (st, []) ∧
      mapping.eachPair ρ (some {}) (mapping.logged f) (st, []) = (st, [])) :=
  ⟨by decide, find_key_never_added [(1, 10), (2, 20)] 3 (by decide)⟩

/-- C12: `add` on a mapping whose map is allocated leaves the map allocated and
the entry sequence as it was, hence empty when it was empty; and so does every
sequence of `add` calls. -/
theorem add_stays_indexed {K V : Type} [DecidableEq K] (h : mapping K V) (k : K) (v : V)
    (hm : h.m.isSome = true) :
    (∃ h1, h.add k v = some h1 ∧ h1.m.isSome = true ∧ h1.s = h.s) ∧
    ∀ ops, ∃ h2, mapping.addAll h ops = some h2 ∧ h2.m.isSome = true ∧ h2.s = h.s := by
  obtain ⟨b, hb⟩ := Option.isSome_iff_exists.1 hm
  exact ⟨⟨_, mapping.add_indexed h k v b hb, rfl, rfl⟩,
    fun ops => ⟨_, mapping.addAll_indexed ops h b hb, rfl, rfl⟩⟩

/-- Witness of C12: an indexed mapping holding one binding. -/
theorem add_stays_indexed_witness :
    (({ s := [], m := some [(1, 10)] } : mapping Nat Nat).m.isSome = true) ∧
    ((∃ h1, mapping.add ({ s := [], m := some [(1, 10)] } : mapping Nat Nat) 2 20 = some h1 ∧
      h1.m.isSome = true ∧ h1.s = []) ∧
    ∀ ops, ∃ h2, mapping.addAll ({ s := [], m := some [(1, 10)] } : mapping Nat Nat) ops
      = some h2 ∧ h2.m.isSome = true ∧ h2.s = []) :=
  ⟨rfl, add_stays_indexed ({ s := [], m := some [(1, 10)] } : mapping Nat Nat) 2 20 rfl⟩

/-- C13: on every mux, for every method and handler, `Handle` completes: the
map it assigns into is allocated at that point, and it is allocated in the mux
it leaves. -/
theorem Handle_completes {H : Type} (s : ServeMux H) (M : Method) (h : H) :
    (∃ b, (if s.tree.children.m.isNone then GoMap.make else s.tree.children.m) = some b) ∧
    ∃ s1 b1, s.Handle M h = some s1 ∧ s1.tree.children.m = some b1 := by
  cases hm : s.tree.children.m with
  | none => exact ⟨⟨[], rfl⟩, _, _, ServeMux.Handle_nil s M h hm, rfl⟩
  | some b => exact ⟨⟨b, rfl⟩, _, _, ServeMux.Handle_indexed s M h b hm, rfl⟩

/-- C14: on a mux reached from the zero value by `Handle` calls, a method that
the lookup reported found before `Handle(M, H)` is reported found after it. -/
theorem Handle_keeps_found_methods {H : Type} [Inhabited H] (calls : List (Method × H))
    (s : ServeMux H) (M other : Method) (h : H)
    (hr : ServeMux.handleAll ServeMux.zero calls = some s)
    (hfound : (mapping.find s.table other).2 = true) :
    ∃ s1, s.Handle M h = some s1 ∧ (mapping.find s1.table other).2 = true := by
  obtain ⟨s1, hh⟩ := ServeMux.Handle_total s M h
  exact ⟨s1, hh, ServeMux.found_after_Handle s s1 M other h
    (ServeMux.reachable_slice calls s hr) hfound hh⟩

/-- Witness of C14: with "a" registered, registering "b" keeps "a" found. -/
theorem Handle_keeps_found_methods_witness :
    ServeMux.handleAll (ServeMux.zero : ServeMux Nat) [("a", 1)]
        = some ⟨{}, .mk ⟨[], some [("a", ServeMux.newNode 1)]⟩ 0⟩ ∧
      (mapping.find (ServeMux.table
        (⟨{}, .mk ⟨[], some [("a", ServeMux.newNode 1)]⟩ 0⟩ : ServeMux Nat)) "a").2 = true ∧
      ∃ s1, ServeMux.Handle
          (⟨{}, .mk ⟨[], some [("a", ServeMux.newNode 1)]⟩ 0⟩ : ServeMux Nat) "b" 2 = some s1 ∧
        (mapping.find s1.table "a").2 = true :=
  ⟨rfl, rfl, Handle_keeps_found_methods [("a", 1)] _ "b" "a" 2 rfl rfl⟩

/-- C15 fails on the code: run statement by statement, the body of `Handle` is
the allocation and the assignment, and each starts with the lock as the caller
left it; on the zero mux the lock is free when the table is written. -/
theorem Handle_leaves_the_lock_alone {H : Type} [Inhabited H] (s : ServeMux H) (M : Method)
    (h : H) :
    (ServeMux.runStmts (ServeMux.HandleBody M h) s).2 = s.Handle M h ∧
    (ServeMux.runStmts (ServeMux.HandleBody M h) s).1.length = 2 ∧
    (∀ t ∈ (ServeMux.runStmts (ServeMux.HandleBody M h) s).1, t.mu = s.mu) ∧
    ∀ t ∈ (ServeMux.runStmts (ServeMux.HandleBody M h) ServeMux.zero).1,
      t.mu.writer = false := by
  have key : ∀ s0 : ServeMux H,
      (ServeMux.runStmts (ServeMux.HandleBody M h) s0).2 = s0.Handle M h ∧
      (ServeMux.runStmts (ServeMux.HandleBody M h) s0).1.length = 2 ∧
      ∀ t ∈ (ServeMux.runStmts (ServeMux.HandleBody M h) s0).1, t.mu = s0.mu := by
    intro s0
    cases hm : s0.tree.children.m with
    | none =>
      simp [ServeMux.runStmts, ServeMux.HandleBody, ServeMux.HandleStmt.exec, hm,
        ServeMux.Handle, GoMap.make, GoMap.store, routingNode.children_mk,
        routingNode.handler_mk]
    | some b =>
      simp [ServeMux.runStmts, ServeMux.HandleBody, ServeMux.HandleStmt.exec, hm,
        ServeMux.Handle, GoMap.store]
  refine ⟨(key s).1, (key s).2.1, (key s).2.2, fun t ht => ?_⟩
  rw [(key ServeMux.zero).2.2 t ht]
  rfl

/-! ## Traversal, completion item kinds, conversion -/

/-- C16: `eachPair` calls the visitor on a leading part of the stored pairs, in
the order of the iteration (the entry sequence in compact form, a rearrangement
of the bindings of the map otherwise), once each; every answer but possibly the
last is `true`; it stops short of a pair only after the answer `false`; and a
visitor that always answers `true` is called on every pair. -/
theorem eachPair_calls_until_false {K V σ : Type} (ρ : mapping.RangeOrder K V)
    (h : mapping K V) (f : mapping.Visitor K V σ) (st : σ) :
    ∃ (seq : List (K × V)) (n : Nat),
      (h.m = none → seq = h.s.map mapping.toPair) ∧
      (∀ b, h.m = some b → seq.Perm b) ∧
      n ≤ seq.length ∧
      (mapping.eachPair ρ (some h) (mapping.logged f) (st, [])).1
        = mapping.eachPair ρ (some h) f st ∧
      (mapping.eachPair ρ (some h) (mapping.logged f) (st, [])).2.map
        (fun c => (c.key, c.value)) = seq.take n ∧
      (∀ c ∈ (mapping.eachPair ρ (some h) (mapping.logged f) (st, [])).2.dropLast,
        c.result = true) ∧
      (n < seq.length → ∃ c,
        (mapping.eachPair ρ (some h) (mapping.logged f) (st, [])).2.getLast? = some c ∧
        c.result = false) ∧
      ((∀ k v s, (f k v s).1 = true) → n = seq.length) := by
  cases hm : h.m with
  | none =>
    obtain ⟨n, calls, hn, heq, hmap, hdl, hlast, hall⟩ :=
      mapping.eachPairLoop_logged f (h.s.map mapping.toPair) st []
    have hrun : mapping.eachPair ρ (some h) (mapping.logged f) (st, [])
        = (mapping.eachPair ρ (some h) f st, calls) := by
      simp only [mapping.eachPair, hm, heq, List.nil_append]
    rw [hrun]
    exact ⟨_, n, fun _ => rfl, fun b hb => (by cases hb), hn, rfl, hmap, hdl, hlast, hall⟩
  | some b =>
    obtain ⟨n, calls, hn, heq, hmap, hdl, hlast, hall⟩ :=
      mapping.eachPairLoop_logged f (ρ.order b) st []
    have hrun : mapping.eachPair ρ (some h) (mapping.logged f) (st, [])
        = (mapping.eachPair ρ (some h) f st, calls) := by
      simp only [mapping.eachPair, hm, heq, List.nil_append]
    rw [hrun]
    refine ⟨_, n, fun hc => (by cases hc), fun b1 hb => ?_, hn, rfl, hmap, hdl, hlast, hall⟩
    cases hb
    exact ρ.perm b

/-- C17 fails on the code: for the zero value of the type the index is -1, and
`String` panics; so it does for 26 and for -1. -/
theorem String_of_zero_kind_panics :
    domain.CompletionItemKind.String 0 = none ∧
    domain.CompletionItemKind.String 26 = none ∧
    domain.CompletionItemKind.String (-1) = none := by
  decide

set_option maxRecDepth 8000 in
/-- C18: the 25 declared constants have the values 1 to 25 in the order of their
declaration, `String` returns for each its identifier without the leading
`CompletionItemKind`, and the 25 strings are pairwise distinct. -/
theorem String_of_declared_kinds :
    domain.declaredKinds.map Prod.snd = (List.range 25).map (fun i => (i : Int) + 1) ∧
    domain.declaredKinds.map (fun p => domain.CompletionItemKind.String p.2)
      = domain.declaredKinds.map (fun p => some (domain.kindName p.1)) ∧
    (domain.declaredKinds.map (fun p => domain.CompletionItemKind.String p.2)).Nodup := by
  decide

/-- C19 fails on the code: eight `add` calls, two of them with the key 1, leave
a compact mapping of eight entries where `find 1` is the first value written;
adding the key 9 converts it, and `find 1` is then the second. -/
theorem conversion_changes_repeated_key :
    mapping.addAll ({} : mapping Nat Nat)
        [(1, 10), (1, 20), (2, 0), (3, 0), (4, 0), (5, 0), (6, 0), (7, 0)]
      = some ⟨[⟨1, 10⟩, ⟨1, 20⟩, ⟨2, 0⟩, ⟨3, 0⟩, ⟨4, 0⟩, ⟨5, 0⟩, ⟨6, 0⟩, ⟨7, 0⟩], none⟩ ∧
    mapping.find (some (⟨[⟨1, 10⟩, ⟨1, 20⟩, ⟨2, 0⟩, ⟨3, 0⟩, ⟨4, 0⟩, ⟨5, 0⟩, ⟨6, 0⟩, ⟨7, 0⟩],
      none⟩ : mapping Nat Nat)) 1 = (10, true) ∧
    mapping.add (⟨[⟨1, 10⟩, ⟨1, 20⟩, ⟨2, 0⟩, ⟨3, 0⟩, ⟨4, 0⟩, ⟨5, 0⟩, ⟨6, 0⟩, ⟨7, 0⟩],
        none⟩ : mapping Nat Nat) 9 0
      = some ⟨[], some [(1, 20), (2, 0), (3, 0), (4, 0), (5, 0), (6, 0), (7, 0), (9, 0)]⟩ ∧
    mapping.find (some (⟨[], some [(1, 20), (2, 0), (3, 0), (4, 0), (5, 0), (6, 0), (7, 0),
      (9, 0)]⟩ : mapping Nat Nat)) 1 = (20, true) := by
  decide

/-- C20: with `maxSlice` at 8, a sequence of `add` calls on the zero mapping
leaves, when it has at most 8 calls, the compact mapping whose entries are the
pairs in the order of the calls, and otherwise an indexed mapping with an empty
entry sequence; along the sequence the map is allocated from the ninth call on
and not before. -/
theorem addAll_zero_representation {K V : Type} [DecidableEq K] (ops : List (K × V)) :
    maxSlice = 8 ∧
    mapping.addAll ({} : mapping K V) ops = some (if ops.length ≤ 8 then
        { s := ops.map mapping.toEntry, m := none }
      else { s := [], m := some (mapping.transferred (ops.map mapping.toEntry) []) }) ∧
    ∀ i, ∃ h, mapping.addAll ({} : mapping K V) (ops.take i) = some h ∧
      (h.m.isSome = true ↔ 8 < min i ops.length) := by
  have key : ∀ l : List (K × V), mapping.addAll ({} : mapping K V) l
      = some (if l.length ≤ 8 then { s := l.map mapping.toEntry, m := none }
        else { s := [], m := some (mapping.transferred (l.map mapping.toEntry) []) }) := by
    intro l
    have h0 := mapping.addAll_compact l ({} : mapping K V) rfl (by simp)
    simpa [maxSlice] using h0
  refine ⟨rfl, key ops, fun i => ?_⟩
  refine ⟨_, key (ops.take i), ?_⟩
  rw [List.length_take]
  by_cases hle : min i ops.length ≤ 8
  · rw [if_pos hle]
    simp
    omega
  · rw [if_neg hle]
    simp
    omega

/-! ## Keys kept by `add` -/

namespace GoMap

variable {K V : Type}

theorem index_found_iff [DecidableEq K] [Inhabited V] (b : List (K × V)) (k : K) :
    (index (some b) k).2 = true ↔ k ∈ b.map Prod.fst := by
  induction b with
  | nil => simp [index_some, lookup]
  | cons p rest ih =>
    obtain ⟨k1, v1⟩ := p
    by_cases hk : k1 = k
    · simp [index_some, lookup, hk]
    · have hk' : ¬ k = k1 := fun h => hk h.symm
      have ih' := ih
      simp only [index_some] at ih'
      simp [index_some, lookup, hk, hk', ih']

theorem mem_keys_update [DecidableEq K] (b : List (K × V)) (k k' : K) (v : V) :
    k' ∈ (update b k v).map Prod.fst ↔ k' = k ∨ k' ∈ b.map Prod.fst := by
  induction b with
  | nil => simp [update]
  | cons p rest ih =>
    obtain ⟨k1, v1⟩ := p
    by_cases hk : k1 = k
    · subst hk
      simp [update]
    · simp only [update, hk, if_false, List.map_cons, List.mem_cons, ih]
      tauto

end GoMap

namespace mapping

variable {K V : Type}

theorem mem_keys_transferred [DecidableEq K] (l : List (entry K V)) (b : List (K × V))
    (k : K) :
    k ∈ (transferred l b).map Prod.fst ↔ k ∈ l.map entry.key ∨ k ∈ b.map Prod.fst := by
  induction l generalizing b with
  | nil => simp [transferred]
  | cons e rest ih =>
    rw [transferred_cons, ih, GoMap.mem_keys_update]
    simp only [List.map_cons, List.mem_cons]
    tauto

theorem scan_found_iff [DecidableEq K] [Inhabited V] (l : List (entry K V)) (k : K) :
    (scan l k).2 = true ↔ k ∈ l.map entry.key := by
  have h := scan_snd_false_iff l k
  constructor
  · intro ht
    by_contra hn
    rw [h.2 hn] at ht
    cases ht
  · intro hmem
    cases hs : (scan l k).2 with
    | true => rfl
    | false => exact absurd hmem (h.1 hs)

/-- The key set `find` reports of a mapping. -/
theorem find_found_iff [DecidableEq K] [Inhabited V] (h : mapping K V) (k : K) :
    (find (some h) k).2 = true ↔
      (h.m = none ∧ k ∈ h.s.map entry.key) ∨ ∃ b, h.m = some b ∧ k ∈ b.map Prod.fst := by
  cases hm : h.m with
  | none =>
    rw [find_compact h k hm, scan_found_iff]
    simp
  | some b =>
    rw [find_indexed h k b hm, GoMap.index_found_iff]
    simp

/-- A key found before `add` is found after it. -/
theorem found_after_add [DecidableEq K] [Inhabited V] (h h1 : mapping K V) (k k' : K) (v : V)
    (hfound : (find (some h) k').2 = true) (hadd : h.add k v = some h1) :
    (find (some h1) k').2 = true := by
  cases hm : h.m with
  | none =>
    rw [find_compact h k' hm, scan_found_iff] at hfound
    by_cases hl : h.s.length < maxSlice
    · rw [add_compact h k v hm hl] at hadd
      cases hadd
      rw [find_compact _ _ rfl, scan_found_iff]
      simp only [List.map_append, List.mem_append]
      exact Or.inl hfound
    · rw [add_convert h k v hm hl] at hadd
      cases hadd
      rw [find_indexed _ _ _ rfl, GoMap.index_found_iff, GoMap.mem_keys_update,
        mem_keys_transferred]
      exact Or.inr (Or.inl hfound)
  | some b =>
    rw [find_indexed h k' b hm, GoMap.index_found_iff] at hfound
    rw [add_indexed h k v b hm] at hadd
    cases hadd
    rw [find_indexed _ _ _ rfl, GoMap.index_found_iff, GoMap.mem_keys_update]
    exact Or.inr hfound

end mapping

namespace ServeMux

variable {H : Type}

/-- After `Handle` the method map is allocated. -/
theorem Handle_map_some (s s1 : ServeMux H) (method : Method) (handler : H)
    (hh : s.Handle method handler = some s1) : ∃ b, s1.tree.children.m = some b := by
  cases hm : s.tree.children.m with
  | none =>
    rw [Handle_nil s method handler hm] at hh
    cases hh
    exact ⟨_, rfl⟩
  | some b =>
    rw [Handle_indexed s method handler b hm] at hh
    cases hh
    exact ⟨_, rfl⟩

/-- A non-empty sequence of `Handle` calls leaves the method map allocated. -/
theorem handleAll_map_some (calls : List (Method × H)) :
    ∀ s s1 : ServeMux H, calls ≠ [] → handleAll s calls = some s1 →
      ∃ b, s1.tree.children.m = some b := by
  induction calls with
  | nil =>
    intro _ _ hne _
    exact absurd rfl hne
  | cons c rest ih =>
    obtain ⟨m, h⟩ := c
    intro s s1 _ hall
    obtain ⟨s2, hh⟩ := Handle_total s m h
    simp only [handleAll, hh, Option.some_bind] at hall
    cases rest with
    | nil =>
      cases hall
      exact Handle_map_some s _ m h hh
    | cons c1 rest1 => exact ih s2 s1 (List.cons_ne_nil _ _) hall

theorem handleAll_total (calls : List (Method × H)) :
    ∀ s : ServeMux H, ∃ s1, handleAll s calls = some s1 := by
  induction calls with
  | nil => exact fun s => ⟨s, rfl⟩
  | cons c rest ih =>
    obtain ⟨m, h⟩ := c
    intro s
    obtain ⟨s2, hh⟩ := Handle_total s m h
    obtain ⟨s1, hall⟩ := ih s2
    exact ⟨s1, by simp [handleAll, hh, hall]⟩

end ServeMux

/-! ## Keys, representations, forced indexing, traversal against lookup -/

/-- C21: on every mapping, a key that `find` reports found before `add(k, v)` is
reported found after it; and when `add` converts the mapping, every key of the
entry sequence it discards is bound in the map it leaves. -/
theorem add_keeps_found_keys {K V : Type} [DecidableEq K] [Inhabited V] (h : mapping K V)
    (k other : K) (v : V) (hfound : (mapping.find (some h) other).2 = true) :
    (∃ h1, h.add k v = some h1 ∧ (mapping.find (some h1) other).2 = true) ∧
    (h.m = none → ¬ h.s.length < maxSlice →
      ∃ b, h.add k v = some ⟨[], some b⟩ ∧
        ∀ e ∈ h.s, (GoMap.index (some b) e.key).2 = true) := by
  refine ⟨?_, fun hm hl => ?_⟩
  · obtain ⟨h1, hadd⟩ := mapping.add_total h k v
    exact ⟨h1, hadd, mapping.found_after_add h h1 k other v hfound hadd⟩
  · refine ⟨_, mapping.add_convert h k v hm hl, fun e he => ?_⟩
    rw [GoMap.index_found_iff, GoMap.mem_keys_update, mapping.mem_keys_transferred]
    exact Or.inr (Or.inl (List.mem_map_of_mem entry.key he))

/-- Witness of C21: a compact mapping of eight entries, converted by adding the
key 9; the key 1 stays found. -/
theorem add_keeps_found_keys_witness :
    (mapping.find (some (⟨[⟨1, 10⟩, ⟨2, 0⟩, ⟨3, 0⟩, ⟨4, 0⟩, ⟨5, 0⟩, ⟨6, 0⟩, ⟨7, 0⟩, ⟨8, 0⟩],
      none⟩ : mapping Nat Nat)) 1).2 = true ∧
    ((∃ h1, mapping.add (⟨[⟨1, 10⟩, ⟨2, 0⟩, ⟨3, 0⟩, ⟨4, 0⟩, ⟨5, 0⟩, ⟨6, 0⟩, ⟨7, 0⟩, ⟨8, 0⟩],
        none⟩ : mapping Nat Nat) 9 0 = some h1 ∧ (mapping.find (some h1) 1).2 = true) ∧
    ((⟨[⟨1, 10⟩, ⟨2, 0⟩, ⟨3, 0⟩, ⟨4, 0⟩, ⟨5, 0⟩, ⟨6, 0⟩, ⟨7, 0⟩, ⟨8, 0⟩],
        none⟩ : mapping Nat Nat).m = none →
      ¬ (⟨[⟨1, 10⟩, ⟨2, 0⟩, ⟨3, 0⟩, ⟨4, 0⟩, ⟨5, 0⟩, ⟨6, 0⟩, ⟨7, 0⟩, ⟨8, 0⟩],
        none⟩ : mapping Nat Nat).s.length < maxSlice →
      ∃ b, mapping.add (⟨[⟨1, 10⟩, ⟨2, 0⟩, ⟨3, 0⟩, ⟨4, 0⟩, ⟨5, 0⟩, ⟨6, 0⟩, ⟨7, 0⟩, ⟨8, 0⟩],
          none⟩ : mapping Nat Nat) 9 0 = some ⟨[], some b⟩ ∧
        ∀ e ∈ (⟨[⟨1, 10⟩, ⟨2, 0⟩, ⟨3, 0⟩, ⟨4, 0⟩, ⟨5, 0⟩, ⟨6, 0⟩, ⟨7, 0⟩, ⟨8, 0⟩],
          none⟩ : mapping Nat Nat).s, (GoMap.index (some b) e.key).2 = true)) :=
  ⟨by decide, add_keeps_found_keys _ 9 1 0 (by decide)⟩

/-- C22: after any sequence of `add` calls on the zero mapping, either the map
is nil and the entry sequence has at most `maxSlice` entries, or the map is
allocated and the entry sequence is empty; an allocated map never comes with a
non-empty entry sequence. -/
theorem addAll_representations_exclusive {K V : Type} [DecidableEq K] (ops : List (K × V)) :
    ∃ h, mapping.addAll ({} : mapping K V) ops = some h ∧
      ((h.m = none ∧ h.s.length ≤ maxSlice) ∨ (h.m.isSome = true ∧ h.s = [])) ∧
      ¬ (h.m.isSome = true ∧ h.s ≠ []) := by
  have h0 := mapping.addAll_compact ops ({} : mapping K V) rfl (Nat.zero_le _)
  by_cases hle : ({} : mapping K V).s.length + ops.length ≤ maxSlice
  · rw [if_pos hle] at h0
    refine ⟨_, h0, Or.inl ⟨rfl, ?_⟩, fun hc => by cases hc.1⟩
    simpa using hle
  · rw [if_neg hle] at h0
    exact ⟨_, h0, Or.inr ⟨rfl, rfl⟩, fun hc => hc.2 rfl⟩

/-- C23: every non-empty sequence of `Handle` calls on the zero mux completes and
leaves the method map allocated and the entry sequence of the method table
empty. -/
theorem handleAll_forces_indexed {H : Type} [Inhabited H] (calls : List (Method × H))
    (hne : calls ≠ []) :
    ∃ s b, ServeMux.handleAll ServeMux.zero calls = some s ∧
      s.tree.children.m = some b ∧ s.tree.children.s = [] := by
  obtain ⟨s, hall⟩ := ServeMux.handleAll_total calls (ServeMux.zero : ServeMux H)
  obtain ⟨b, hb⟩ := ServeMux.handleAll_map_some calls ServeMux.zero s hne hall
  exact ⟨s, b, hall, hb, ServeMux.reachable_slice calls s hall⟩

/-- Witness of C23: a single call. -/
theorem handleAll_forces_indexed_witness :
    ([("textDocument/rename", 1)] : List (Method × Nat)) ≠ [] ∧
    ∃ s b, ServeMux.handleAll (ServeMux.zero : ServeMux Nat) [("textDocument/rename", 1)]
        = some s ∧
      s.tree.children.m = some b ∧ s.tree.children.s = [] :=
  ⟨by decide, handleAll_forces_indexed [("textDocument/rename", 1)] (by decide)⟩

/-- C24 fails on the code: after `add(1, 10)` and `add(1, 20)` on the zero
mapping, `eachPair` with a visitor that always answers `true` is called on
(1, 10) and on (1, 20), the key 1 twice, while `find 1` is (10, true). -/
theorem eachPair_visits_repeated_key_twice :
    mapping.addAll ({} : mapping Nat Nat) [(1, 10), (1, 20)]
      = some ⟨[⟨1, 10⟩, ⟨1, 20⟩], none⟩ ∧
    (mapping.eachPair mapping.RangeOrder.stored
        (some (⟨[⟨1, 10⟩, ⟨1, 20⟩], none⟩ : mapping Nat Nat))
        (mapping.logged (fun _ _ (st : Unit) => (true, st))) ((), [])).2
      = [⟨1, 10, true⟩, ⟨1, 20, true⟩] ∧
    mapping.find (some (⟨[⟨1, 10⟩, ⟨1, 20⟩], none⟩ : mapping Nat Nat)) 1 = (10, true) := by
  decide

/-! ## Dispatch over the method table -/

namespace ServeMux

variable {H : Type}

theorem handleAll_append (l1 l2 : List (Method × H)) :
    ∀ s : ServeMux H,
      handleAll s (l1 ++ l2) = (handleAll s l1).bind (fun s1 => handleAll s1 l2) := by
  induction l1 with
  | nil => exact fun s => rfl
  | cons c rest ih =>
    obtain ⟨m, h⟩ := c
    intro s
    obtain ⟨s2, hh⟩ := Handle_total s m h
    simp only [List.cons_append, handleAll, hh, Option.some_bind]
    exact ih s2

/-- The lookup of a method after a sequence of calls, when the last call that
registers it registers `h`. -/
theorem find_last_registered [Inhabited H] (pre post : List (Method × H)) (M : Method)
    (h : H) (s : ServeMux H) (hlast : M ∉ post.map Prod.fst)
    (hall : handleAll zero (pre ++ (M, h) :: post) = some s) :
    mapping.find s.table M = (newNode h, true) := by
  obtain ⟨s1, h1⟩ := handleAll_total pre (zero : ServeMux H)
  obtain ⟨s2, h2⟩ := Handle_total s1 M h
  have hs1 : s1.tree.children.s = [] := reachable_slice pre s1 h1
  have hs2 : s2.tree.children.s = [] := by rw [Handle_slice s1 s2 M h h2, hs1]
  obtain ⟨s3, h3, hfind⟩ := handleAll_unregistered post M s2 hs2 hlast
  have hrun : handleAll zero (pre ++ (M, h) :: post) = some s3 := by
    simp [handleAll_append, h1, handleAll, h2, h3]
  rw [hrun] at hall
  cases hall
  rw [hfind]
  exact find_Handle_self s1 s2 M h h2

end ServeMux

/-- C4, for the `Dispatch` of the specification run over the method table of the
source: after any sequence of `Handle` calls on the zero mux, when the last
call registering `M` registers `h`, `Dispatch` reports an invocation, has
invoked `h` once with the sink and the request and no other handler, and
returns the world `h` leaves; when no call registers `M`, it reports
method-not-found and has invoked no handler. -/
theorem Dispatch_invokes_registered_handler {H W R σ : Type} [Inhabited H]
    (serve : H → W → R → σ → σ) (calls : List (Method × H)) (M : Method) (request : R)
    (sink : W) (st : σ) :
    ∃ s, ServeMux.handleAll ServeMux.zero calls = some s ∧
      (∀ pre h post, calls = pre ++ (M, h) :: post → M ∉ post.map Prod.fst →
        ServeMux.Dispatch (ServeMux.recorded serve) s M request sink (st, [])
          = (.invoked, (serve h sink request st, [⟨h, sink, request⟩])) ∧
        ServeMux.Dispatch serve s M request sink st
          = (.invoked, serve h sink request st)) ∧
      (M ∉ calls.map Prod.fst →
        ServeMux.Dispatch (ServeMux.recorded serve) s M request sink (st, [])
          = (.methodNotFound, (st, []))) := by
  obtain ⟨s, hall⟩ := ServeMux.handleAll_total calls (ServeMux.zero : ServeMux H)
  refine ⟨s, hall, fun pre h post hc hlast => ?_, fun hnot => ?_⟩
  · rw [hc] at hall
    have hfind := ServeMux.find_last_registered pre post M h s hlast hall
    simp [ServeMux.Dispatch, hfind, ServeMux.newNode, ServeMux.recorded,
      routingNode.handler_mk]
  · obtain ⟨s1, h1, hfind⟩ :=
      ServeMux.handleAll_unregistered calls M (ServeMux.zero : ServeMux H) rfl hnot
    rw [hall] at h1
    cases h1
    have hzero : mapping.find (ServeMux.zero : ServeMux H).table M = (none, false) := rfl
    simp [ServeMux.Dispatch, hfind, hzero]

/-- Witness of C4: with the handler 7 registered for "textDocument/hover" after
an earlier registration of 3, dispatching that method invokes 7 once, and
dispatching "textDocument/definition" reports method-not-found. -/
theorem Dispatch_invokes_registered_handler_witness :
    (∃ s, ServeMux.handleAll (ServeMux.zero : ServeMux Nat)
        [("textDocument/hover", 3), ("textDocument/hover", 7)] = some s ∧
      ServeMux.Dispatch (ServeMux.recorded (fun (h : Nat) (_ : Unit) (_ : Unit) (n : Nat) =>
          n + h)) s "textDocument/hover" () () (0, [])
        = (.invoked, (7, [⟨7, (), ()⟩]))) ∧
    (∃ s, ServeMux.handleAll (ServeMux.zero : ServeMux Nat)
        [("textDocument/hover", 3), ("textDocument/hover", 7)] = some s ∧
      ServeMux.Dispatch (ServeMux.recorded (fun (h : Nat) (_ : Unit) (_ : Unit) (n : Nat) =>
          n + h)) s "textDocument/definition" () () (0, [])
        = (.methodNotFound, (0, []))) := by
  constructor
  · obtain ⟨s, hs, hreg, _⟩ := Dispatch_invokes_registered_handler
      (fun (h : Nat) (_ : Unit) (_ : Unit) (n : Nat) => n + h)
      [("textDocument/hover", 3), ("textDocument/hover", 7)] "textDocument/hover" () () 0
    exact ⟨s, hs, by
      simpa using (hreg [("textDocument/hover", 3)] 7 [] rfl (by simp)).1⟩
  · obtain ⟨s, hs, _, hnot⟩ := Dispatch_invokes_registered_handler
      (fun (h : Nat) (_ : Unit) (_ : Unit) (n : Nat) => n + h)
      [("textDocument/hover", 3), ("textDocument/hover", 7)] "textDocument/definition" () () 0
    exact ⟨s, hs, hnot (by decide)⟩

end Glisp
